import Mathlib

/-!
Verification of the multi-provider LLM conversation orchestrator
(`bot/services/llm.py`, `bot/services/gemini.py`) and its conversation-state
and rate-limiting data model (`bot/database/repository.py`, `bot/database/models.py`).

The Python code is shallowly embedded: the relational store is a record of
row lists kept in insertion order (`created_at` / AUTOINCREMENT order),
every repository method is a pure function on that record, fallible calls
return `Except`, and upstream provider clients are parameters describing the
outcome of each network call.
-/

namespace Bot

/-- Outcome of one Python call that can raise: either a value or a raised
exception, identified by its string representation (`str(e)`), which is all
the rotation logic inspects. -/
inductive PyResult (α : Type) where
  | ok (v : α)
  | exn (msg : String)
deriving Repr, DecidableEq

/-- Exceptions that the embedded orchestrator code can surface: an ordinary
provider/value error carrying `str(e)`, or Python's `AttributeError` raised
when a missing attribute (such as an undefined repository method) is
accessed. -/
inductive PyExn where
  | exn (msg : String)
  | attributeError (attr : String)
deriving Repr, DecidableEq

/-- Helper for `containsSub`: does `pat` occur as a contiguous run inside the
character list? -/
def containsSubAux (pat : List Char) : List Char → Bool
  | [] => pat.isEmpty
  | c :: rest => pat.isPrefixOf (c :: rest) || containsSubAux pat rest

/-- Substring test on the underlying character sequences, mirroring Python's
`pat in s`. -/
def containsSub (s pat : String) : Bool :=
  containsSubAux pat.data s.data

/-- Rate-limit classification from `GeminiService._call_with_rotation`:
`"429" in err_str or "RESOURCE_EXHAUSTED" in err_str`. -/
def isRateLimitError (e : String) : Bool :=
  containsSub e "429" || containsSub e "RESOURCE_EXHAUSTED"

/-- Cursor advance of `GeminiService._rotate`:
`self._current_idx = (self._current_idx + 1) % len(self._clients)`. -/
def rotate (K cur : ℕ) : ℕ := (cur + 1) % K

/-- Observable outcome of `_call_with_rotation`: the returned value or raised
error (`error none` models `raise None`, reachable only for an empty pool),
the cursor after the call, and the list of credential indices attempted, in
order. -/
structure RotOutcome (α : Type) where
  result : Except (Option String) α
  cursor : ℕ
  used : List ℕ
deriving Repr

/-- Loop body of `GeminiService._call_with_rotation`, with the remaining
iteration count of `for _ in range(len(self._clients))` made explicit.
The credential used at each attempt is `clients[self._current_idx % len]`
(the `_client` property); success rotates and returns, a rate-limit error
records the error, rotates and continues, any other error propagates
immediately, and exhausting the loop re-raises the last recorded error. -/
def callWithRotationAux (f : ℕ → PyResult α) (K : ℕ) :
    ℕ → ℕ → Option String → RotOutcome α
  | 0, cur, lastErr => ⟨.error lastErr, cur, []⟩
  | fuel + 1, cur, lastErr =>
    let cred := cur % K
    match f cred with
    | .ok v => ⟨.ok v, rotate K cur, [cred]⟩
    | .exn e =>
      if isRateLimitError e then
        let r := callWithRotationAux f K fuel (rotate K cur) (some e)
        ⟨r.result, r.cursor, cred :: r.used⟩
      else
        ⟨.error (some e), cur, [cred]⟩

/-- `GeminiService._call_with_rotation(func)` on a pool of `K` credentials
with current cursor `cur`; `f i` is the outcome of invoking the wrapped
operation with credential `i`. -/
def call_with_rotation (f : ℕ → PyResult α) (K cur : ℕ) : RotOutcome α :=
  callWithRotationAux f K K cur none

/-- The `str(e)` carried by a `PyResult`, empty for a success; used only to
phrase which error an all-rate-limited cycle propagates. -/
def exnOf (r : PyResult α) : String :=
  match r with
  | .ok _ => ""
  | .exn e => e

/-- A sequence of consecutive `_call_with_rotation` invocations: each entry
of `fs` describes the provider outcomes of one invocation.  Returns the
concatenated list of attempted credential indices and the final cursor. -/
def runCalls (fs : List (ℕ → PyResult α)) (K cur : ℕ) : List ℕ × ℕ :=
  match fs with
  | [] => ([], cur)
  | f :: rest =>
    let r := call_with_rotation f K cur
    let (used, c') := runCalls rest K r.cursor
    (r.used ++ used, c')

theorem callWithRotationAux_used_length (f : ℕ → PyResult α) (K : ℕ) :
    ∀ fuel cur lastErr, (callWithRotationAux f K fuel cur lastErr).used.length ≤ fuel := by
  intro fuel
  induction fuel with
  | zero => intro cur lastErr; simp [callWithRotationAux]
  | succ n ih =>
    intro cur lastErr
    simp only [callWithRotationAux]
    cases f (cur % K) with
    | ok v => simp
    | exn e =>
      by_cases h : isRateLimitError e
      · simpa [h] using ih (rotate K cur) (some e)
      · simp [h]

theorem callWithRotationAux_allRateLimited (f : ℕ → PyResult α) (K : ℕ)
    (hall : ∀ i, i < K → ∃ e, f i = .exn e ∧ isRateLimitError e = true) (hK : 0 < K) :
    ∀ fuel cur lastErr, 0 < fuel →
      callWithRotationAux f K fuel cur lastErr =
        ⟨.error (some (exnOf (f ((cur + (fuel - 1)) % K)))), (cur + fuel) % K,
          (List.range fuel).map (fun i => (cur + i) % K)⟩ := by
  intro fuel
  induction fuel with
  | zero => intro cur lastErr h; omega
  | succ n ih =>
    intro cur lastErr _
    obtain ⟨e, he, hrl⟩ := hall (cur % K) (Nat.mod_lt _ hK)
    simp only [callWithRotationAux, he, hrl, if_pos]
    cases n with
    | zero =>
      simp [callWithRotationAux, rotate, he, exnOf, List.range_succ]
    | succ m =>
      rw [ih (rotate K cur) (some e) (Nat.succ_pos m)]
      simp only [RotOutcome.mk.injEq]
      refine ⟨?_, ?_, ?_⟩
      · simp only [rotate, Nat.succ_sub_one]
        rw [Nat.mod_add_mod]
        have h : cur + 1 + m = cur + (m + 1) := by omega
        rw [h]
      · simp only [rotate]
        rw [Nat.mod_add_mod]
        have h : cur + 1 + (m + 1) = cur + (m + 1 + 1) := by omega
        rw [h]
      · conv_rhs => rw [List.range_succ_eq_map]
        rw [List.map_cons, List.map_map]
        simp only [List.cons.injEq, Nat.add_zero, true_and]
        apply List.map_congr_left
        intro i _
        simp only [Function.comp, rotate, Nat.succ_eq_add_one]
        rw [Nat.mod_add_mod]
        have h : cur + 1 + i = cur + (i + 1) := by omega
        rw [h]

/-- Claim C2: on a pool of `K` credentials, `_call_with_rotation` makes at
most `K` attempts; if every credential fails with a rate-limit-class error
(its text contains "429" or "RESOURCE_EXHAUSTED") it makes exactly `K`
attempts, propagates the error of the last attempted credential
(`(cur + K - 1) % K`), and leaves the cursor back at its starting position;
a non-rate-limit error propagates immediately, after a single attempt and
without any rotation. -/
theorem call_with_rotation_retry_contract (f : ℕ → PyResult α) (K cur : ℕ)
    (hK : 0 < K) (hcur : cur < K) :
    (call_with_rotation f K cur).used.length ≤ K ∧
    ((∀ i, i < K → ∃ e, f i = .exn e ∧ isRateLimitError e = true) →
      ∀ e, f ((cur + (K - 1)) % K) = .exn e →
        (call_with_rotation f K cur).result = .error (some e) ∧
        (call_with_rotation f K cur).cursor = cur ∧
        (call_with_rotation f K cur).used.length = K) ∧
    (∀ e, f cur = .exn e → isRateLimitError e = false →
      call_with_rotation f K cur = ⟨.error (some e), cur, [cur]⟩) := by
  refine ⟨callWithRotationAux_used_length f K K cur none, ?_, ?_⟩
  · intro hall e he
    rw [call_with_rotation, callWithRotationAux_allRateLimited f K hall hK K cur none hK]
    refine ⟨by simp [he, exnOf], ?_, by simp⟩
    simp only [Nat.add_mod_right, Nat.mod_eq_of_lt hcur]
  · intro e he hrl
    obtain ⟨k, rfl⟩ : ∃ k, K = k + 1 := ⟨K - 1, by omega⟩
    simp [call_with_rotation, callWithRotationAux, Nat.mod_eq_of_lt hcur, he, hrl]

theorem call_with_rotation_success_step (g : ℕ → PyResult α) (K cur : ℕ) (v : α)
    (hK : 0 < K) (hok : g (cur % K) = .ok v) :
    call_with_rotation g K cur = ⟨.ok v, (cur + 1) % K, [cur % K]⟩ := by
  obtain ⟨k, rfl⟩ : ∃ k, K = k + 1 := ⟨K - 1, by omega⟩
  simp [call_with_rotation, callWithRotationAux, hok, rotate]

theorem runCalls_all_ok (K : ℕ) (hK : 0 < K) :
    ∀ fs : List (ℕ → PyResult α), (∀ g ∈ fs, ∀ i, ∃ v, g i = .ok v) →
    ∀ cur, cur < K → runCalls fs K cur =
      ((List.range fs.length).map (fun i => (cur + i) % K), (cur + fs.length) % K) := by
  intro fs
  induction fs with
  | nil =>
    intro _ cur hcur
    simp [runCalls, Nat.mod_eq_of_lt hcur]
  | cons g rest ih =>
    intro hok cur hcur
    obtain ⟨v, hv⟩ := hok g (List.mem_cons_self g rest) (cur % K)
    have hstep := call_with_rotation_success_step g K cur v hK hv
    have hrest : ∀ g' ∈ rest, ∀ i, ∃ v', g' i = .ok v' := by
      intro g' hg' i
      exact hok g' (List.mem_cons_of_mem g hg') i
    simp only [runCalls, hstep, ih hrest ((cur + 1) % K) (Nat.mod_lt _ hK)]
    refine Prod.ext ?_ ?_
    · simp only [List.length_cons]
      conv_rhs => rw [List.range_succ_eq_map]
      rw [List.map_cons, List.map_map, List.singleton_append]
      simp only [List.cons.injEq, Nat.add_zero, true_and]
      apply List.map_congr_left
      intro i _
      simp only [Function.comp, Nat.succ_eq_add_one]
      rw [Nat.mod_add_mod]
      have h : cur + 1 + i = cur + (i + 1) := by omega
      rw [h]
    · simp only [List.length_cons]
      rw [Nat.mod_add_mod]
      have h : cur + 1 + rest.length = cur + (rest.length + 1) := by omega
      rw [h]

theorem cyclic_visit_perm (K : ℕ) (hK : 0 < K) :
    ∀ cur, List.Perm ((List.range K).map (fun i => (cur + i) % K)) (List.range K) := by
  intro cur
  induction cur with
  | zero =>
    have h : (List.range K).map (fun i => (0 + i) % K) = List.range K := by
      rw [show (List.range K).map (fun i => (0 + i) % K) = (List.range K).map id from ?_]
      · exact List.map_id _
      · apply List.map_congr_left
        intro i hi
        simp only [Nat.zero_add, id]
        exact Nat.mod_eq_of_lt (List.mem_range.mp hi)
    rw [h]
  | succ c ih =>
    obtain ⟨k, rfl⟩ : ∃ k, K = k + 1 := ⟨K - 1, by omega⟩
    have h1 : (List.range (k + 1 + 1)).map (fun i => (c + i) % (k + 1)) =
        ((List.range (k + 1)).map (fun i => (c + i) % (k + 1))) ++ [(c + (k + 1)) % (k + 1)] := by
      rw [List.range_succ, List.map_append, List.map_cons, List.map_nil]
    have h2 : (List.range (k + 1 + 1)).map (fun i => (c + i) % (k + 1)) =
        ((c + 0) % (k + 1)) :: (List.range (k + 1)).map (fun i => (c + 1 + i) % (k + 1)) := by
      rw [List.range_succ_eq_map, List.map_cons, List.map_map]
      simp only [List.cons.injEq, true_and]
      apply List.map_congr_left
      intro i _
      simp only [Function.comp, Nat.succ_eq_add_one]
      have h : c + (i + 1) = c + 1 + i := by omega
      rw [h]
    have h3 : (c + (k + 1)) % (k + 1) = (c + 0) % (k + 1) := by
      simp [Nat.add_mod_right]
    rw [h3] at h1
    have hperm : List.Perm
        (((c + 0) % (k + 1)) :: (List.range (k + 1)).map (fun i => (c + 1 + i) % (k + 1)))
        (((c + 0) % (k + 1)) :: (List.range (k + 1)).map (fun i => (c + i) % (k + 1))) := by
      rw [← h2, h1]
      exact List.perm_append_singleton _ _
    exact (hperm.cons_inv).trans ih

/-- Claim C3: on a pool of size `K`, `K` consecutive successful
`_call_with_rotation` invocations starting at cursor `cur` attempt the
credentials `cur, (cur+1) % K, ...` in the fixed cyclic order, visiting all
`K` credentials exactly once (the attempted list is a permutation of
`range K`) and returning the cursor to its starting point; moreover every
single successful call uses the credential at the current cursor, advances
the cursor by exactly one modulo `K`, and leaves the cursor a valid index. -/
theorem rotation_monotonicity (fs : List (ℕ → PyResult α)) (K cur : ℕ)
    (hK : 0 < K) (hcur : cur < K) (hlen : fs.length = K)
    (hok : ∀ g ∈ fs, ∀ i, ∃ v, g i = .ok v) :
    (runCalls fs K cur).1 = (List.range K).map (fun i => (cur + i) % K) ∧
    List.Perm (runCalls fs K cur).1 (List.range K) ∧
    (runCalls fs K cur).2 = cur ∧
    (∀ g : ℕ → PyResult α, ∀ c v, c < K → g c = .ok v →
      call_with_rotation g K c = ⟨.ok v, (c + 1) % K, [c]⟩) ∧
    (∀ c, c < K → (c + 1) % K < K) := by
  have hrun := runCalls_all_ok K hK fs hok cur hcur
  refine ⟨by rw [hrun, hlen], ?_, ?_, ?_, ?_⟩
  · rw [hrun, hlen]
    exact cyclic_visit_perm K hK cur
  · rw [hrun, hlen]
    simp [Nat.add_mod_right, Nat.mod_eq_of_lt hcur]
  · intro g c v hc hokc
    have := call_with_rotation_success_step g K c v hK (by rwa [Nat.mod_eq_of_lt hc])
    rwa [Nat.mod_eq_of_lt hc] at this
  · intro c _
    exact Nat.mod_lt _ hK

theorem call_with_rotation_retry_contract_witness :
    (call_with_rotation (fun _ => PyResult.exn (α := ℕ) "429") 2 0).result = .error (some "429") ∧
    (call_with_rotation (fun _ => PyResult.exn (α := ℕ) "429") 2 0).cursor = 0 ∧
    (call_with_rotation (fun _ => PyResult.exn (α := ℕ) "429") 2 0).used.length = 2 :=
  (call_with_rotation_retry_contract (fun _ => PyResult.exn "429") 2 0 (by decide)
      (by decide)).2.1
    (fun _ _ => ⟨"429", rfl, by decide⟩) "429" rfl

/-- Row of the `conversations` table (`bot/database/models.py`); list order
models `created_at` / AUTOINCREMENT order.  Per the schema, `is_active`
defaults to 1 on insert. -/
structure ConvRow where
  id : ℕ
  user_id : ℕ
  model : String
  system_prompt : String
  is_active : Bool
deriving Repr, DecidableEq

/-- Row of the `messages` table (`bot/database/models.py`). -/
structure MsgRow where
  id : ℕ
  conversation_id : ℕ
  role : String
  content : String
  content_type : String
  image_url : Option String
  tokens_used : ℕ
deriving Repr, DecidableEq

/-- One Gemini `types.Content` block: a role (`"user"` or `"model"`) and its
text part. -/
structure GContent where
  role : String
  text : String
deriving Repr, DecidableEq

/-- One OpenAI chat message dict: `{"role": ..., "content": ...}`. -/
structure OAIMsg where
  role : String
  content : String
deriving Repr, DecidableEq

/-- Role/content conversion done inside `GeminiService._build_contents`:
`role = "model" if msg["role"] == "assistant" else "user"`. -/
def toGContent (m : MsgRow) : GContent :=
  ⟨if m.role == "assistant" then "model" else "user", m.content⟩

/-- Loop of `GeminiService._build_contents` over `reversed(history)`:
accumulate each message's character count, stop (`break`) as soon as the
accumulated count exceeds `max_chars`, otherwise `insert(0, ...)` the
converted message.  The argument list is the history already reversed
(most recent first); the output is in chronological order. -/
def buildContentsRev : List MsgRow → ℕ → ℕ → List GContent
  | [], _, _ => []
  | m :: rest, total, maxChars =>
    let t := total + m.content.length
    if maxChars < t then []
    else buildContentsRev rest t maxChars ++ [toGContent m]

/-- `GeminiService._build_contents(history, max_chars)`: walk the history
from most recent backward with an accumulator starting at 0. -/
def build_contents (history : List MsgRow) (maxChars : ℕ) : List GContent :=
  buildContentsRev history.reverse 0 maxChars

/-- Loop of `LLMService._build_messages` over `reversed(history)`: same
budget walk, but each kept message keeps its own role and is inserted at
index 1, after the system message. -/
def buildMessagesRev : List MsgRow → ℕ → ℕ → List OAIMsg
  | [], _, _ => []
  | m :: rest, total, maxChars =>
    let t := total + m.content.length
    if maxChars < t then []
    else buildMessagesRev rest t maxChars ++ [⟨m.role, m.content⟩]

/-- System-prompt concatenation shared by `LLMService._build_messages` and
`GeminiService._build_system_instruction`: append the skills block and the
memory block, each only when nonempty (Python truthiness). -/
def build_system (base skills memory : String) : String :=
  let s1 := if skills ≠ "" then base ++ "\n\n" ++ skills else base
  if memory ≠ "" then s1 ++ "\n\n" ++ memory else s1

/-- `LLMService._build_messages(conv, history, memory_prompt)`: a system
message followed by the budget-trimmed history.  Note the accumulator starts
at `len(conv["system_prompt"])` — the base system prompt only, not the
skills/memory-extended string — exactly as in the source. -/
def build_messages (conv : ConvRow) (history : List MsgRow)
    (skills memory : String) (maxChars : ℕ) : List OAIMsg :=
  let system := build_system conv.system_prompt skills memory
  ⟨"system", system⟩ :: buildMessagesRev history.reverse conv.system_prompt.length maxChars

/-- The messages kept by the backward budget walk, in most-recent-first
order: the longest prefix of the reversed history whose running character
total stays within the budget. -/
def takeBudget : List MsgRow → ℕ → ℕ → List MsgRow
  | [], _, _ => []
  | m :: rest, total, maxChars =>
    let t := total + m.content.length
    if maxChars < t then []
    else m :: takeBudget rest t maxChars

/-- Total character count of a history, the quantity the budget walk
accumulates. -/
def sumLens (h : List MsgRow) : ℕ :=
  (h.map (fun m => m.content.length)).sum

theorem buildContentsRev_eq_takeBudget :
    ∀ (msgs : List MsgRow) (total B : ℕ),
      buildContentsRev msgs total B = ((takeBudget msgs total B).reverse).map toGContent := by
  intro msgs
  induction msgs with
  | nil => intro total B; simp [buildContentsRev, takeBudget]
  | cons m rest ih =>
    intro total B
    simp only [buildContentsRev, takeBudget]
    by_cases hB : B < total + m.content.length
    · simp [hB]
    · simp [hB, ih]

theorem buildMessagesRev_eq_takeBudget :
    ∀ (msgs : List MsgRow) (total B : ℕ),
      buildMessagesRev msgs total B =
        ((takeBudget msgs total B).reverse).map (fun m => (⟨m.role, m.content⟩ : OAIMsg)) := by
  intro msgs
  induction msgs with
  | nil => intro total B; simp [buildMessagesRev, takeBudget]
  | cons m rest ih =>
    intro total B
    simp only [buildMessagesRev, takeBudget]
    by_cases hB : B < total + m.content.length
    · simp [hB]
    · simp [hB, ih]

theorem takeBudget_isPrefix :
    ∀ (msgs : List MsgRow) (total B : ℕ), ∃ k, takeBudget msgs total B = msgs.take k := by
  intro msgs
  induction msgs with
  | nil => intro total B; exact ⟨0, rfl⟩
  | cons m rest ih =>
    intro total B
    simp only [takeBudget]
    by_cases hB : B < total + m.content.length
    · exact ⟨0, by simp [hB]⟩
    · obtain ⟨k, hk⟩ := ih (total + m.content.length) B
      exact ⟨k + 1, by simp [hB, hk]⟩

theorem takeBudget_all :
    ∀ (msgs : List MsgRow) (total B : ℕ), total + sumLens msgs ≤ B →
      takeBudget msgs total B = msgs := by
  intro msgs
  induction msgs with
  | nil => intro total B _; rfl
  | cons m rest ih =>
    intro total B hle
    have hsum : sumLens (m :: rest) = m.content.length + sumLens rest := by
      simp [sumLens]
    rw [hsum] at hle
    have h1 : ¬ B < total + m.content.length := by omega
    simp only [takeBudget, h1, if_neg, not_false_iff]
    rw [ih (total + m.content.length) B (by omega)]

theorem takeBudget_concat_ne (h' : List MsgRow) (m : MsgRow) (total B : ℕ) :
    (takeBudget ((h' ++ [m]).reverse) total B ≠ [] ↔ total + m.content.length ≤ B) := by
  rw [List.reverse_append, List.reverse_singleton, List.singleton_append]
  simp only [takeBudget]
  by_cases hB : B < total + m.content.length
  · simp [hB]
  · simp [hB]
    omega

theorem sumLens_reverse (l : List MsgRow) : sumLens l.reverse = sumLens l := by
  simp [sumLens, List.map_reverse, List.sum_reverse]

theorem takeBudget_reverse_suffix (h : List MsgRow) (total B : ℕ) :
    (takeBudget h.reverse total B).reverse <:+ h := by
  obtain ⟨k, hk⟩ := takeBudget_isPrefix h.reverse total B
  rw [hk]
  have h1 := List.reverse_suffix.mpr (List.take_prefix k h.reverse)
  simpa using h1

/-- Claim C4 (amended): both prompt assemblers keep a suffix of the history
in chronological order (oldest messages dropped first); a history whose
total character count fits the budget is kept whole; and the single most
recent message is included if and only if its own length (offset by the base
system-prompt length in the OpenAI assembler, whose accumulator starts
there) fits the budget — in particular an over-budget most recent message is
itself dropped. -/
theorem prompt_assembler_truncation (h : List MsgRow) (B : ℕ) (conv : ConvRow)
    (skills memory : String) :
    (build_contents h B <:+ h.map toGContent) ∧
    (sumLens h ≤ B → build_contents h B = h.map toGContent) ∧
    (∀ h' m, h = h' ++ [m] → (build_contents h B ≠ [] ↔ m.content.length ≤ B)) ∧
    ((build_messages conv h skills memory B).tail <:+
      h.map (fun m => (⟨m.role, m.content⟩ : OAIMsg))) ∧
    (conv.system_prompt.length + sumLens h ≤ B →
      (build_messages conv h skills memory B).tail =
        h.map (fun m => (⟨m.role, m.content⟩ : OAIMsg))) ∧
    (∀ h' m, h = h' ++ [m] →
      ((build_messages conv h skills memory B).tail ≠ [] ↔
        conv.system_prompt.length + m.content.length ≤ B)) := by
  have htail : (build_messages conv h skills memory B).tail =
      buildMessagesRev h.reverse conv.system_prompt.length B := by
    simp [build_messages]
  refine ⟨?_, ?_, ?_, ?_, ?_, ?_⟩
  · rw [build_contents, buildContentsRev_eq_takeBudget]
    exact List.IsSuffix.map _ (takeBudget_reverse_suffix h 0 B)
  · intro hle
    rw [build_contents, buildContentsRev_eq_takeBudget,
      takeBudget_all h.reverse 0 B (by rw [sumLens_reverse]; omega)]
    simp
  · intro h' m hm
    subst hm
    rw [build_contents, buildContentsRev_eq_takeBudget]
    have hne := takeBudget_concat_ne h' m 0 B
    simp only [ne_eq, List.map_eq_nil_iff, List.reverse_eq_nil_iff]
    simp only [ne_eq] at hne
    rw [hne]
    omega
  · rw [htail, buildMessagesRev_eq_takeBudget]
    exact List.IsSuffix.map _ (takeBudget_reverse_suffix h conv.system_prompt.length B)
  · intro hle
    rw [htail, buildMessagesRev_eq_takeBudget,
      takeBudget_all h.reverse conv.system_prompt.length B (by rw [sumLens_reverse]; omega)]
    simp
  · intro h' m hm
    subst hm
    rw [htail, buildMessagesRev_eq_takeBudget]
    have hne := takeBudget_concat_ne h' m conv.system_prompt.length B
    simp only [ne_eq, List.map_eq_nil_iff, List.reverse_eq_nil_iff]
    simp only [ne_eq] at hne
    rw [hne]

theorem prompt_assembler_truncation_witness :
    (build_contents [⟨1, 1, "user", "hi", "text", none, 0⟩] 100 =
      ([⟨1, 1, "user", "hi", "text", none, 0⟩] : List MsgRow).map toGContent) ∧
    ((build_messages ⟨1, 7, "gpt-4o", "sys", true⟩
        [⟨1, 1, "user", "hi", "text", none, 0⟩] "" "" 100).tail =
      ([⟨1, 1, "user", "hi", "text", none, 0⟩] : List MsgRow).map
        (fun m => (⟨m.role, m.content⟩ : OAIMsg))) := by
  have h := prompt_assembler_truncation [⟨1, 1, "user", "hi", "text", none, 0⟩] 100
    ⟨1, 7, "gpt-4o", "sys", true⟩ "" ""
  exact ⟨h.2.1 (by decide), h.2.2.2.2.1 (by decide)⟩

/-- Claim C4 counterexample: a one-message history of length 10 against a
budget of 5 exceeds the budget, yet `_build_contents` drops even the single
most recent message (the first accumulation already busts the budget and the
loop breaks before inserting anything), contradicting the claim that the
most recent message is always included. -/
theorem prompt_assembler_counterexample :
    5 < sumLens [⟨1, 1, "user", "0123456789", "text", none, 0⟩] ∧
    build_contents [⟨1, 1, "user", "0123456789", "text", none, 0⟩] 5 = [] := by
  constructor
  · decide
  · rfl

/-- Minimum interval between streaming message edits, from
`STREAM_EDIT_INTERVAL = 1.5` in both service modules; clock values are
embedded as exact rationals. -/
def STREAM_EDIT_INTERVAL : ℚ := 3 / 2

/-- One chunk yielded by the provider's streaming iterator: the text delta
and the event-loop clock reading (`loop.time()`) taken when it arrives. -/
structure Chunk where
  delta : String
  now : ℚ
deriving Repr

/-- Observable callback behaviour of the `chat_stream` loop: the
intermediate `on_chunk` invocations (text sent, clock time), the final
`on_chunk` invocation if any, and the accumulated `full_text`. -/
structure StreamTrace where
  edits : List (String × ℚ)
  final : Option String
  fullText : String
deriving Repr

/-- The `async for chunk in stream` loop of `chat_stream`
(`gemini.py` / `llm.py`): accumulate the delta, and when the clock has
advanced at least the edit interval past the last edit and the accumulated
text is nonempty, invoke `on_chunk(full_text + " ▌")` and remember the
time. -/
def streamLoopAux (interval : ℚ) : List Chunk → String → ℚ → List (String × ℚ) × String
  | [], full, _ => ([], full)
  | c :: rest, full, lastEdit =>
    let full' := full ++ c.delta
    if interval ≤ c.now - lastEdit ∧ full' ≠ "" then
      let r := streamLoopAux interval rest full' c.now
      ((full' ++ " ▌", c.now) :: r.1, r.2)
    else
      streamLoopAux interval rest full' lastEdit

/-- The whole streaming-callback phase of `chat_stream`: run the chunk loop
starting with empty text and `last_edit = 0`, then perform the final
`on_chunk(full_text)` — but only `if full_text:` (nonempty). -/
def streamLoop (interval : ℚ) (chunks : List Chunk) : StreamTrace :=
  let r := streamLoopAux interval chunks "" 0
  ⟨r.1, if r.2 ≠ "" then some r.2 else none, r.2⟩

theorem streamLoopAux_spacing (interval : ℚ) :
    ∀ (chunks : List Chunk) (full : String) (lastEdit : ℚ),
      (∀ p, ((streamLoopAux interval chunks full lastEdit).1.head? = some p) →
        lastEdit + interval ≤ p.2) ∧
      List.Chain' (fun a b => a.2 + interval ≤ b.2)
        (streamLoopAux interval chunks full lastEdit).1 := by
  intro chunks
  induction chunks with
  | nil => intro full lastEdit; simp [streamLoopAux]
  | cons c rest ih =>
    intro full lastEdit
    simp only [streamLoopAux]
    by_cases hcond : interval ≤ c.now - lastEdit ∧ full ++ c.delta ≠ ""
    · rw [if_pos hcond]
      constructor
      · intro p hp
        simp only [List.head?_cons, Option.some.injEq] at hp
        subst hp
        have := hcond.1
        linarith
      · rw [List.chain'_cons']
        refine ⟨?_, (ih (full ++ c.delta) c.now).2⟩
        intro b hb
        exact (ih (full ++ c.delta) c.now).1 b (by simpa using hb)
    · rw [if_neg hcond]
      refine ⟨?_, (ih (full ++ c.delta) lastEdit).2⟩
      exact (ih (full ++ c.delta) lastEdit).1

theorem streamLoopAux_fullText (interval : ℚ) :
    ∀ (chunks : List Chunk) (full : String) (lastEdit : ℚ),
      (streamLoopAux interval chunks full lastEdit).2 =
        chunks.foldl (fun a c => a ++ c.delta) full := by
  intro chunks
  induction chunks with
  | nil => intro full lastEdit; simp [streamLoopAux]
  | cons c rest ih =>
    intro full lastEdit
    simp only [streamLoopAux, List.foldl_cons]
    by_cases hcond : interval ≤ c.now - lastEdit ∧ full ++ c.delta ≠ ""
    · rw [if_pos hcond]
      exact ih (full ++ c.delta) c.now
    · rw [if_neg hcond]
      exact ih (full ++ c.delta) lastEdit

theorem foldl_append_length_le :
    ∀ (chunks : List Chunk) (full : String),
      full.length ≤ (chunks.foldl (fun a c => a ++ c.delta) full).length := by
  intro chunks
  induction chunks with
  | nil => intro full; simp
  | cons c rest ih =>
    intro full
    simp only [List.foldl_cons]
    calc full.length ≤ (full ++ c.delta).length := by
          rw [String.length_append]; omega
      _ ≤ _ := ih (full ++ c.delta)

theorem streamLoopAux_empty_no_edits (interval : ℚ) :
    ∀ (chunks : List Chunk) (full : String) (lastEdit : ℚ),
      (streamLoopAux interval chunks full lastEdit).2 = "" →
      (streamLoopAux interval chunks full lastEdit).1 = [] := by
  intro chunks
  induction chunks with
  | nil => intro full lastEdit _; rfl
  | cons c rest ih =>
    intro full lastEdit hempty
    simp only [streamLoopAux] at hempty ⊢
    by_cases hcond : interval ≤ c.now - lastEdit ∧ full ++ c.delta ≠ ""
    · exfalso
      rw [if_pos hcond] at hempty
      have h1 : (full ++ c.delta).length ≤
          ((streamLoopAux interval rest (full ++ c.delta) c.now).2).length := by
        rw [streamLoopAux_fullText]
        exact foldl_append_length_le rest (full ++ c.delta)
      rw [hempty] at h1
      simp only [String.length_empty, Nat.le_zero] at h1
      have h2 : full ++ c.delta = "" := by
        have := congrArg String.length (rfl : full ++ c.delta = full ++ c.delta)
        cases hfc : full ++ c.delta with
        | mk data =>
          cases data with
          | nil => rfl
          | cons ch rest' =>
            rw [hfc] at h1
            simp [String.length] at h1
      exact hcond.2 h2
    · rw [if_neg hcond] at hempty ⊢
      exact ih (full ++ c.delta) lastEdit hempty

theorem rotation_monotonicity_witness :
    (runCalls [fun _ => PyResult.ok (0 : ℕ), fun _ => PyResult.ok 0] 2 0).1 = [0, 1] ∧
    (runCalls [fun _ => PyResult.ok (0 : ℕ), fun _ => PyResult.ok 0] 2 0).2 = 0 := by
  have h := rotation_monotonicity [fun _ => PyResult.ok (0 : ℕ), fun _ => PyResult.ok 0] 2 0
    (by decide) (by decide) rfl
    (by intro g' hg' i; fin_cases hg' <;> exact ⟨0, rfl⟩)
  exact ⟨by rw [h.1]; rfl, h.2.2.1⟩

/-- Claim C7 (amended): intermediate `on_chunk` invocations are spaced at
least the edit interval apart as measured by the clock at chunk arrival; the
accumulated text is the concatenation of all deltas; when that text is
nonempty the interval-exempt final invocation fires exactly once carrying
it; when it is empty no invocation at all occurs — the final callback is
guarded by `if full_text:` and is skipped, rather than always firing. -/
theorem stream_backpressure (interval : ℚ) (chunks : List Chunk) :
    List.Chain' (fun a b => a.2 + interval ≤ b.2) (streamLoop interval chunks).edits ∧
    (streamLoop interval chunks).fullText = chunks.foldl (fun a c => a ++ c.delta) "" ∧
    ((streamLoop interval chunks).fullText ≠ "" →
      (streamLoop interval chunks).final = some (streamLoop interval chunks).fullText) ∧
    ((streamLoop interval chunks).fullText = "" →
      (streamLoop interval chunks).final = none ∧ (streamLoop interval chunks).edits = []) := by
  refine ⟨(streamLoopAux_spacing interval chunks "" 0).2, streamLoopAux_fullText interval chunks "" 0, ?_, ?_⟩
  · intro hne
    simp only [streamLoop] at hne ⊢
    rw [if_pos hne]
  · intro hemp
    simp only [streamLoop] at hemp ⊢
    rw [if_neg (by simpa using hemp)]
    exact ⟨rfl, streamLoopAux_empty_no_edits interval chunks "" 0 hemp⟩

theorem stream_backpressure_witness :
    (streamLoop STREAM_EDIT_INTERVAL [⟨"Hello, ", 2⟩, ⟨"world", 4⟩]).final =
      some (streamLoop STREAM_EDIT_INTERVAL [⟨"Hello, ", 2⟩, ⟨"world", 4⟩]).fullText ∧
    (streamLoop STREAM_EDIT_INTERVAL [⟨"Hello, ", 2⟩, ⟨"world", 4⟩]).fullText = "Hello, world" := by
  have h := stream_backpressure STREAM_EDIT_INTERVAL [⟨"Hello, ", 2⟩, ⟨"world", 4⟩]
  have hfull : (streamLoop STREAM_EDIT_INTERVAL [⟨"Hello, ", 2⟩, ⟨"world", 4⟩]).fullText =
      "Hello, world" := by
    rw [h.2.1]
    rfl
  exact ⟨h.2.2.1 (by rw [hfull]; decide), hfull⟩

/-- Claim C7 counterexample: a stream that ends with empty accumulated text
(here two empty-delta chunks) produces no final `on_chunk` invocation at
all, refuting "a final invocation ... always fires exactly once". -/
theorem stream_final_counterexample :
    (streamLoop STREAM_EDIT_INTERVAL [⟨"", 0⟩, ⟨"", 2⟩]).final = none := by
  have h := stream_backpressure STREAM_EDIT_INTERVAL [⟨"", 0⟩, ⟨"", 2⟩]
  exact (h.2.2.2 (by rw [h.2.1]; rfl)).1

/-- The `web` field of a Gemini grounding chunk: an optional URI and an
optional title. -/
structure GroundingWeb where
  uri : Option String
  title : Option String
deriving Repr, DecidableEq

/-- One entry of `grounding_metadata.grounding_chunks`. -/
structure GroundingChunk where
  web : Option GroundingWeb
deriving Repr, DecidableEq

/-- Citation extraction loop of `GeminiService.chat_web_search`:
`if gc.web and gc.web.uri:` (Python truthiness — present and nonempty),
`title = gc.web.title or gc.web.uri` (absent or empty title falls back to
the URI), and append the formatted entry `[title](uri)`. -/
def extract_sources : List GroundingChunk → List String
  | [] => []
  | gc :: rest =>
    match gc.web with
    | none => extract_sources rest
    | some w =>
      match w.uri with
      | none => extract_sources rest
      | some u =>
        if u = "" then extract_sources rest
        else
          let title :=
            match w.title with
            | some t => if t = "" then u else t
            | none => u
          ("[" ++ title ++ "](" ++ u ++ ")") :: extract_sources rest

/-- Helper for `pyDedup`: keep each entry the first time it is seen,
skipping entries already in `seen`. -/
def pyDedupAux (seen : List String) : List String → List String
  | [] => []
  | x :: xs => if x ∈ seen then pyDedupAux seen xs else x :: pyDedupAux (x :: seen) xs

/-- Python's `list(dict.fromkeys(sources))`: remove duplicates keeping the
first occurrence of each entry, preserving first-seen order. -/
def pyDedup (l : List String) : List String :=
  pyDedupAux [] l

/-- `unique_sources = list(dict.fromkeys(sources))[:5]` from both
`chat_web_search` implementations. -/
def dedupCap (sources : List String) : List String :=
  (pyDedup sources).take 5

/-- Appending the formatted Sources block to the reply, as both
`chat_web_search` implementations do when any source was collected. -/
def append_sources (text : String) (sources : List String) : String :=
  if sources ≠ [] then
    text ++ "\n\nИсточники:\n" ++
      String.intercalate "\n" ((dedupCap sources).map (fun s => "• " ++ s))
  else text

theorem pyDedupAux_mem (s : String) :
    ∀ (l seen : List String), s ∈ pyDedupAux seen l ↔ s ∈ l ∧ s ∉ seen := by
  intro l
  induction l with
  | nil => intro seen; simp [pyDedupAux]
  | cons x xs ih =>
    intro seen
    simp only [pyDedupAux]
    by_cases hx : x ∈ seen
    · rw [if_pos hx, ih seen]
      constructor
      · rintro ⟨h1, h2⟩
        exact ⟨List.mem_cons_of_mem x h1, h2⟩
      · rintro ⟨h1, h2⟩
        rcases List.mem_cons.mp h1 with h | h
        · subst h; exact absurd hx h2
        · exact ⟨h, h2⟩
    · rw [if_neg hx]
      simp only [List.mem_cons, ih (x :: seen), List.mem_cons]
      by_cases hsx : s = x
      · subst hsx; simp [hx]
      · simp [hsx]

theorem pyDedup_mem (s : String) (l : List String) : s ∈ pyDedup l ↔ s ∈ l := by
  rw [pyDedup, pyDedupAux_mem]
  simp

theorem pyDedupAux_nodup : ∀ (l seen : List String), (pyDedupAux seen l).Nodup := by
  intro l
  induction l with
  | nil => intro seen; simp [pyDedupAux]
  | cons x xs ih =>
    intro seen
    simp only [pyDedupAux]
    by_cases hx : x ∈ seen
    · rw [if_pos hx]; exact ih seen
    · rw [if_neg hx]
      refine List.nodup_cons.mpr ⟨?_, ih (x :: seen)⟩
      rw [pyDedupAux_mem]
      simp

theorem pyDedup_nodup (l : List String) : (pyDedup l).Nodup :=
  pyDedupAux_nodup l []

theorem pyDedupAux_sublist : ∀ (l seen : List String), (pyDedupAux seen l).Sublist l := by
  intro l
  induction l with
  | nil => intro seen; simp [pyDedupAux]
  | cons x xs ih =>
    intro seen
    simp only [pyDedupAux]
    by_cases hx : x ∈ seen
    · rw [if_pos hx]
      exact (ih seen).trans (List.sublist_cons_self x xs)
    · rw [if_neg hx]
      exact List.Sublist.cons₂ x (ih (x :: seen))

theorem pyDedup_sublist (l : List String) : (pyDedup l).Sublist l :=
  pyDedupAux_sublist l []

/-- Claim C8 (amended): the Sources block is capped at 5 entries and is
deduplicated by the full formatted `[title](url)` entry — duplicates of the
same title+URL pair collapse to the first occurrence, the surviving entries
keep their first-seen relative order (a sublist of the extraction order),
and nothing is lost other than duplicates.  Deduplication is not by URL
alone: the same URL under two different titles yields two entries. -/
theorem citation_dedup_cap (chunks : List GroundingChunk) :
    (dedupCap (extract_sources chunks)).length ≤ 5 ∧
    (dedupCap (extract_sources chunks)).Nodup ∧
    (dedupCap (extract_sources chunks)).Sublist (extract_sources chunks) ∧
    (∀ s, s ∈ pyDedup (extract_sources chunks) ↔ s ∈ extract_sources chunks) := by
  refine ⟨?_, ?_, ?_, fun s => pyDedup_mem s _⟩
  · simpa [dedupCap] using List.length_take_le 5 (pyDedup (extract_sources chunks))
  · exact (List.take_sublist 5 _).nodup (pyDedup_nodup (extract_sources chunks))
  · exact (List.take_sublist 5 _).trans (pyDedup_sublist (extract_sources chunks))

/-- Claim C8 counterexample: grounding metadata citing the same URL `u`
twice under two different titles produces a Sources list in which the URL
`u` appears in two distinct entries — deduplication is by the formatted
title+URL string, not by URL. -/
theorem citation_dedup_counterexample :
    dedupCap (extract_sources
      [⟨some ⟨some "u", some "A"⟩⟩, ⟨some ⟨some "u", some "B"⟩⟩]) = ["[A](u)", "[B](u)"] ∧
    ((dedupCap (extract_sources
      [⟨some ⟨some "u", some "A"⟩⟩, ⟨some ⟨some "u", some "B"⟩⟩])).countP
        (fun s => containsSub s "](u)")) = 2 := by
  constructor
  · rfl
  · rfl

/-- Row of the `api_usage` table. -/
structure UsageRow where
  user_id : ℕ
  type : String
  model : String
  tokens_used : ℕ
  created_at : ℕ
deriving Repr, DecidableEq

/-- Row of the `user_memory` table. -/
structure FactRow where
  user_id : ℕ
  fact : String
deriving Repr, DecidableEq

/-- The relational store behind `Repository`: each table as a list of rows
in insertion (`created_at` / AUTOINCREMENT) order, plus the next
AUTOINCREMENT ids for the two tables whose generated ids the services
use. -/
structure Store where
  convs : List ConvRow
  msgs : List MsgRow
  usage : List UsageRow
  facts : List FactRow
  nextConvId : ℕ
  nextMsgId : ℕ
deriving Repr, DecidableEq

/-- `Repository.get_active_conversation`: the user's active conversation
with the greatest `created_at` (`ORDER BY created_at DESC LIMIT 1`), i.e.
the last matching row in insertion order. -/
def get_active_conversation (s : Store) (uid : ℕ) : Option ConvRow :=
  (s.convs.filter (fun c => c.user_id == uid && c.is_active)).getLast?

/-- `Repository.create_conversation`: deactivate every active conversation
of the user, then insert a new row, active by the schema default
`is_active BOOLEAN DEFAULT 1`; returns the new row id (`lastrowid`). -/
def create_conversation (s : Store) (uid : ℕ) (model system_prompt : String) : Store × ℕ :=
  let convs' := s.convs.map (fun c =>
    if c.user_id == uid && c.is_active then { c with is_active := false } else c)
  ({ s with
      convs := convs' ++ [⟨s.nextConvId, uid, model, system_prompt, true⟩],
      nextConvId := s.nextConvId + 1 },
    s.nextConvId)

/-- `Repository.switch_conversation`: bail out returning `False` when the
user owns no conversation with that id; otherwise deactivate every active
conversation of the user and set `is_active = 1` on the row with the given
id, in one transaction. -/
def switch_conversation (s : Store) (uid cid : ℕ) : Store × Bool :=
  if (s.convs.filter (fun c => c.id == cid && c.user_id == uid)).isEmpty then (s, false)
  else
    let convs' := s.convs.map (fun c =>
      if c.user_id == uid && c.is_active then { c with is_active := false } else c)
    let convs'' := convs'.map (fun c => if c.id == cid then { c with is_active := true } else c)
    ({ s with convs := convs'' }, true)

/-- `Repository.add_message`: insert a message row, returning `lastrowid`. -/
def add_message (s : Store) (cid : ℕ) (role content : String) (tokens : ℕ)
    (content_type : String) (image_url : Option String) : Store × ℕ :=
  ({ s with
      msgs := s.msgs ++ [⟨s.nextMsgId, cid, role, content, content_type, image_url, tokens⟩],
      nextMsgId := s.nextMsgId + 1 },
    s.nextMsgId)

/-- `Repository.get_messages`: the most recent `limit` messages of the
conversation (`ORDER BY created_at DESC LIMIT ?`), returned in chronological
order (the source reverses the descending rows). -/
def get_messages (s : Store) (cid limit : ℕ) : List MsgRow :=
  ((s.msgs.filter (fun m => m.conversation_id == cid)).reverse.take limit).reverse

/-- `Repository.delete_last_exchange`: select the up-to-two most recent
message ids of the conversation; if none exist return `False`, otherwise
delete exactly those rows by id. -/
def delete_last_exchange (s : Store) (cid : ℕ) : Store × Bool :=
  let doomed := (s.msgs.filter (fun m => m.conversation_id == cid)).reverse.take 2
  if doomed.isEmpty then (s, false)
  else
    ({ s with msgs := s.msgs.filter (fun m => !((doomed.map MsgRow.id).contains m.id)) }, true)

/-- `Repository.log_api_usage`: append one usage row with the current
timestamp. -/
def log_api_usage (s : Store) (uid : ℕ) (usage_type model : String) (tokens now : ℕ) : Store :=
  { s with usage := s.usage ++ [⟨uid, usage_type, model, tokens, now⟩] }

/-- `Repository.get_user_facts`: the user's most recent `limit` facts, most
recent first (`ORDER BY created_at DESC LIMIT ?`). -/
def get_user_facts (s : Store) (uid limit : ℕ) : List FactRow :=
  (s.facts.filter (fun f => f.user_id == uid)).reverse.take limit

/-- `_get_memory_prompt` of both services: empty when the user has no facts,
otherwise a header line followed by one `- fact` line each. -/
def memory_prompt (facts : List FactRow) : String :=
  if facts.isEmpty then ""
  else
    String.intercalate "\n"
      ("Known facts about this user (use them to personalize your responses):" ::
        facts.map (fun f => "- " ++ f.fact))

/-- `Repository.get_daily_tokens`: sum of the user's usage tokens with
`created_at >= date('now')`; `dayStart` stands for the store-native start of
the current UTC day. -/
def get_daily_tokens (s : Store) (uid dayStart : ℕ) : ℕ :=
  ((s.usage.filter (fun r => r.user_id == uid && dayStart ≤ r.created_at)).map
    (fun r => r.tokens_used)).sum

/-- `Repository.get_monthly_tokens`: sum of the user's usage tokens with
`created_at >= date('now', 'start of month')`. -/
def get_monthly_tokens (s : Store) (uid monthStart : ℕ) : ℕ :=
  ((s.usage.filter (fun r => r.user_id == uid && monthStart ≤ r.created_at)).map
    (fun r => r.tokens_used)).sum

/-- The configuration fields of `Config` consumed by the two services. -/
structure Config where
  default_model : String
  gemini_model : String
  max_context_messages : ℕ
  max_context_tokens : ℕ
  daily_token_limit : ℕ
  monthly_token_limit : ℕ
deriving Repr, DecidableEq

/-- Monthly half of `LLMService.check_limits` (the thousands separator of
the source's number formatting is not reproduced; only presence of a
blocking message matters). -/
def check_monthly (cfg : Config) (s : Store) (uid monthStart : ℕ) : Option String :=
  if 0 < cfg.monthly_token_limit then
    if cfg.monthly_token_limit ≤ get_monthly_tokens s uid monthStart then
      some ("Monthly token limit reached (" ++ toString cfg.monthly_token_limit ++ " tokens).")
    else none
  else none

/-- `LLMService.check_limits`: check the daily ceiling first, then the
monthly one; a ceiling of zero skips its check entirely. -/
def check_limits (cfg : Config) (s : Store) (uid dayStart monthStart : ℕ) : Option String :=
  if 0 < cfg.daily_token_limit then
    if cfg.daily_token_limit ≤ get_daily_tokens s uid dayStart then
      some ("Daily token limit reached (" ++ toString cfg.daily_token_limit ++
        " tokens). Try again tomorrow.")
    else check_monthly cfg s uid monthStart
  else check_monthly cfg s uid monthStart

/-- One part of a Gemini response candidate. -/
structure GemPart where
  text : Option String
deriving Repr, DecidableEq

/-- One Gemini response candidate (only the part texts matter to
`_extract_text`). -/
structure GemCandidate where
  parts : List GemPart
deriving Repr, DecidableEq

/-- A Gemini `generate_content` response as consumed by the service. -/
structure GemResponse where
  text : Option String
  candidates : List GemCandidate
  usage_total_tokens : Option ℕ
deriving Repr, DecidableEq

/-- The part-scanning loop of `_extract_text`: the first part whose `text`
is truthy (present and nonempty). -/
def firstPartText (c : GemCandidate) : Option String :=
  c.parts.findSome? (fun p =>
    match p.text with
    | some t => if t = "" then none else some t
    | none => none)

/-- Fallback half of `_extract_text` (gemini.py): scan the first candidate's
parts, else `raise ValueError("Gemini returned empty response")`. -/
def extract_text_fallback (r : GemResponse) : Except PyExn String :=
  match r.candidates with
  | [] => .error (.exn "Gemini returned empty response")
  | c :: _ =>
    match firstPartText c with
    | some t => .ok t
    | none => .error (.exn "Gemini returned empty response")

/-- `_extract_text(response)` (gemini.py): return `response.text` when
truthy, else fall back to scanning candidate parts, else raise. -/
def extract_text (r : GemResponse) : Except PyExn String :=
  match r.text with
  | some t => if t ≠ "" then .ok t else extract_text_fallback r
  | none => extract_text_fallback r

/-- `GeminiService._ensure_conversation`: fetch the active conversation,
creating one with the default model first when absent; `none` in the second
component models the (unreachable) `conv["id"]` on a missing row. -/
def gemini_ensure_conversation (s : Store) (uid : ℕ) (defaultModel : String) :
    Store × Option (ℕ × ConvRow) :=
  match get_active_conversation s uid with
  | some conv => (s, some (conv.id, conv))
  | none =>
    let s' := (create_conversation s uid defaultModel "You are a helpful assistant.").1
    match get_active_conversation s' uid with
    | some conv => (s', some (conv.id, conv))
    | none => (s', none)

/-- `LLMService._ensure_conversation`: like the Gemini variant but the
conversation id is taken from `create_conversation`'s return value. -/
def llm_ensure_conversation (s : Store) (uid : ℕ) (defaultModel : String) :
    Store × ℕ × Option ConvRow :=
  match get_active_conversation s uid with
  | some conv => (s, conv.id, some conv)
  | none =>
    let r := create_conversation s uid defaultModel "You are a helpful assistant."
    (r.1, r.2, get_active_conversation r.1 uid)

/-- `GeminiService.chat`: ensure a conversation, persist the user turn,
assemble the prompt, call the provider through the rotating pool
(`gen contents system i` is the outcome of credential `i` on this request),
extract the reply text, persist the assistant turn and a usage row, and
return the text.  The background fact-extraction task is fire-and-forget
and never affects this turn, so it is not part of the embedded state
change.  Any raised error propagates with the mutations made so far kept. -/
def gemini_chat (cfg : Config) (skills : String)
    (gen : List GContent → String → ℕ → PyResult GemResponse) (K : ℕ)
    (s : Store) (cur : ℕ) (uid : ℕ) (userMsg : String) (now : ℕ) :
    Except PyExn String × Store × ℕ :=
  match gemini_ensure_conversation s uid cfg.default_model with
  | (s1, none) => (.error (.exn "TypeError: NoneType"), s1, cur)
  | (s1, some (convId, conv)) =>
    let s2 := (add_message s1 convId "user" userMsg 0 "text" none).1
    let memory := memory_prompt (get_user_facts s2 uid 30)
    let history := get_messages s2 convId cfg.max_context_messages
    let contents := build_contents history (cfg.max_context_tokens * 4)
    let system := build_system conv.system_prompt skills memory
    match call_with_rotation (gen contents system) K cur with
    | ⟨.error e, cur', _⟩ => (.error (.exn (e.getD "None")), s2, cur')
    | ⟨.ok resp, cur', _⟩ =>
      match extract_text resp with
      | .error ex => (.error ex, s2, cur')
      | .ok text =>
        let tokens := resp.usage_total_tokens.getD 0
        let s3 := (add_message s2 convId "assistant" text tokens "text" none).1
        let s4 := log_api_usage s3 uid "chat" cfg.gemini_model tokens now
        (.ok text, s4, cur')

/-- An OpenAI chat-completions response as consumed by `_chat_openai`. -/
structure OAIChatResponse where
  content : String
  usage_total_tokens : Option ℕ
deriving Repr, DecidableEq

/-- `LLMService._chat_openai`: same skeleton as `gemini_chat` against the
OpenAI client (`openai messages` is the outcome of the completion call);
uses the conversation's own model and has no rotation state. -/
def chat_openai (cfg : Config) (skills : String)
    (openai : List OAIMsg → PyResult OAIChatResponse)
    (s : Store) (uid : ℕ) (userMsg : String) (now : ℕ) :
    Except PyExn String × Store :=
  match llm_ensure_conversation s uid cfg.default_model with
  | (s1, _, none) => (.error (.exn "TypeError: NoneType"), s1)
  | (s1, convId, some conv) =>
    let s2 := (add_message s1 convId "user" userMsg 0 "text" none).1
    let memory := memory_prompt (get_user_facts s2 uid 30)
    let history := get_messages s2 convId cfg.max_context_messages
    let messages := build_messages conv history skills memory (cfg.max_context_tokens * 4)
    match openai messages with
    | .exn e => (.error (.exn e), s2)
    | .ok resp =>
      let tokens := resp.usage_total_tokens.getD 0
      let s3 := (add_message s2 convId "assistant" resp.content tokens "text" none).1
      let s4 := log_api_usage s3 uid "chat" conv.model tokens now
      (.ok resp.content, s4)

/-- `LLMService.chat`, the Fallback Coordinator for plain chat.  When Gemini
is configured it is tried first; on any exception the handler calls
`self._ensure_conversation` and then `self._delete_last_user_message`, which
invokes `self._repo.delete_last_user_message(conv_id)` — a method
`Repository` (bot/database/repository.py) does not define, so Python raises
`AttributeError` there: no message is deleted and the OpenAI fallback is
never reached.  The same handler shape is inlined in `chat_stream`,
`chat_with_search` and `chat_vision`. -/
def llm_chat (cfg : Config) (geminiConfigured : Bool) (skills : String)
    (gen : List GContent → String → ℕ → PyResult GemResponse) (K : ℕ)
    (openai : List OAIMsg → PyResult OAIChatResponse)
    (s : Store) (cur : ℕ) (uid : ℕ) (userMsg : String) (now : ℕ) :
    Except PyExn String × Store × ℕ :=
  if geminiConfigured then
    match gemini_chat cfg skills gen K s cur uid userMsg now with
    | (.ok t, s', cur') => (.ok t, s', cur')
    | (.error _, s', cur') =>
      let s'' := (llm_ensure_conversation s' uid cfg.default_model).1
      (.error (.attributeError "delete_last_user_message"), s'', cur')
  else
    let r := chat_openai cfg skills openai s uid userMsg now
    (r.1, r.2, cur)

/-- `GeminiService.chat_stream`: persist the user turn, pick the current
client and rotate once (no rotation-on-rate-limit on this path), consume the
stream through the rate-limited callback loop (`chunksOf contents system` is
the successfully consumed chunk sequence), then persist the full text with
`len(full_text) // 4` estimated tokens, log usage, and return the text —
with no emptiness check on the accumulated text. -/
def gemini_chat_stream (cfg : Config) (skills : String)
    (chunksOf : List GContent → String → List Chunk) (K : ℕ)
    (s : Store) (cur : ℕ) (uid : ℕ) (userMsg : String) (now : ℕ) :
    Except PyExn String × Store × ℕ × StreamTrace :=
  match gemini_ensure_conversation s uid cfg.default_model with
  | (s1, none) => (.error (.exn "TypeError: NoneType"), s1, cur, ⟨[], none, ""⟩)
  | (s1, some (convId, conv)) =>
    let s2 := (add_message s1 convId "user" userMsg 0 "text" none).1
    let memory := memory_prompt (get_user_facts s2 uid 30)
    let history := get_messages s2 convId cfg.max_context_messages
    let contents := build_contents history (cfg.max_context_tokens * 4)
    let system := build_system conv.system_prompt skills memory
    let cur' := rotate K cur
    let trace := streamLoop STREAM_EDIT_INTERVAL (chunksOf contents system)
    let full := trace.fullText
    let tokens_est := full.length / 4
    let s3 := (add_message s2 convId "assistant" full tokens_est "text" none).1
    let s4 := log_api_usage s3 uid "chat" cfg.gemini_model tokens_est now
    (.ok full, s4, cur', trace)

/-- An annotation entry with both `url` and `title` attributes, as collected
from `response.output[].content[].annotations[]` by
`_chat_web_search_openai` (the embedding flattens the nested iteration). -/
structure SourceRef where
  title : String
  url : String
deriving Repr, DecidableEq

/-- An OpenAI Responses-API result as consumed by
`_chat_web_search_openai`. -/
structure OAIRespOutput where
  output_text : String
  refs : List SourceRef
  usage_total_tokens : Option ℕ
deriving Repr, DecidableEq

/-- `LLMService._chat_web_search_openai`: persist the user turn, build the
Responses-API input (note its accumulator starts at the length of the full
skills/memory-extended system string), call the API with the `web_search`
tool; on success append the deduplicated capped Sources block, persist the
assistant turn and a `web_search` usage row; on failure call
`delete_last_exchange` — removing the *two* most recent messages of the
conversation — and re-raise. -/
def chat_web_search_openai (cfg : Config) (skills : String)
    (responsesAPI : List OAIMsg → PyResult OAIRespOutput)
    (s : Store) (uid : ℕ) (userMsg : String) (now : ℕ) :
    Except PyExn String × Store :=
  match llm_ensure_conversation s uid cfg.default_model with
  | (s1, _, none) => (.error (.exn "TypeError: NoneType"), s1)
  | (s1, convId, some conv) =>
    let s2 := (add_message s1 convId "user" userMsg 0 "text" none).1
    let history := get_messages s2 convId cfg.max_context_messages
    let memory := memory_prompt (get_user_facts s2 uid 30)
    let system := build_system conv.system_prompt skills memory
    let input := (⟨"system", system⟩ : OAIMsg) ::
      buildMessagesRev history.reverse system.length (cfg.max_context_tokens * 4)
    match responsesAPI input with
    | .exn e =>
      let s3 := (delete_last_exchange s2 convId).1
      (.error (.exn e), s3)
    | .ok resp =>
      let sources := resp.refs.map (fun a => "[" ++ a.title ++ "](" ++ a.url ++ ")")
      let text := append_sources resp.output_text sources
      let tokens := resp.usage_total_tokens.getD (text.length / 4)
      let s3 := (add_message s2 convId "assistant" text tokens "text" none).1
      let s4 := log_api_usage s3 uid "web_search" conv.model tokens now
      (.ok text, s4)

/-- `LLMService.chat_web_search`, the Coordinator for web search: when
Gemini is configured its `chat_web_search` (here an opaque state
transformer, mirroring llm.py lines 276-284) is tried first with the same
broken `delete_last_user_message` handler as `llm_chat`; otherwise — and
this is the only realizable path to the secondary — the OpenAI
implementation runs outside any try/except of the Coordinator, so its
internal `delete_last_exchange` rewind is the only rewind performed. -/
def llm_chat_web_search (cfg : Config) (geminiConfigured : Bool) (skills : String)
    (gemini_ws : Store → Except PyExn String × Store)
    (responsesAPI : List OAIMsg → PyResult OAIRespOutput)
    (s : Store) (uid : ℕ) (userMsg : String) (now : ℕ) :
    Except PyExn String × Store :=
  if geminiConfigured then
    match gemini_ws s with
    | (.ok t, s') => (.ok t, s')
    | (.error _, s') =>
      let s'' := (llm_ensure_conversation s' uid cfg.default_model).1
      (.error (.attributeError "delete_last_user_message"), s'')
  else
    chat_web_search_openai cfg skills responsesAPI s uid userMsg now

/-- Well-formedness of the message table maintained by the schema: ids are
below the AUTOINCREMENT counter and pairwise distinct (PRIMARY KEY). -/
def MsgsWF (s : Store) : Prop :=
  (∀ m ∈ s.msgs, m.id < s.nextMsgId) ∧ s.msgs.Pairwise (fun a b => a.id ≠ b.id)

/-- Claim C5's invariant: every user has at most one active conversation
row. -/
def atMostOneActive (s : Store) : Prop :=
  ∀ uid, s.convs.countP (fun c => c.user_id == uid && c.is_active) ≤ 1

theorem countP_congr_on {α : Type} (l : List α) (p q : α → Bool) (h : ∀ a ∈ l, p a = q a) :
    l.countP p = l.countP q := by
  induction l with
  | nil => rfl
  | cons x xs ih =>
    rw [List.countP_cons, List.countP_cons, h x (List.mem_cons_self x xs),
      ih (fun a ha => h a (List.mem_cons_of_mem x ha))]

theorem deactivate_countP_self (uid : ℕ) (l : List ConvRow) :
    (l.map (fun c =>
      if c.user_id == uid && c.is_active then { c with is_active := false } else c)).countP
      (fun c => c.user_id == uid && c.is_active) = 0 := by
  rw [List.countP_map]
  apply List.countP_eq_zero.mpr
  intro c _
  simp only [Function.comp]
  by_cases hcond : (c.user_id == uid && c.is_active) = true
  · rw [if_pos hcond]
    simp
  · rw [if_neg hcond]
    exact hcond

theorem deactivate_countP_other (uid v : ℕ) (hvu : v ≠ uid) (l : List ConvRow) :
    (l.map (fun c =>
      if c.user_id == uid && c.is_active then { c with is_active := false } else c)).countP
      (fun c => c.user_id == v && c.is_active) =
    l.countP (fun c => c.user_id == v && c.is_active) := by
  rw [List.countP_map]
  apply countP_congr_on
  intro c _
  simp only [Function.comp]
  by_cases hcond : (c.user_id == uid && c.is_active) = true
  · rw [if_pos hcond]
    have huser : c.user_id = uid := by
      have := (Bool.and_eq_true _ _).mp hcond
      exact eq_of_beq this.1
    have hv : (c.user_id == v) = false := by
      rw [huser]
      exact beq_eq_false_iff_ne.mpr (fun h => hvu h.symm)
    simp [hv]
  · rw [if_neg hcond]

theorem deactivate_countP_id (uid cid : ℕ) (l : List ConvRow) :
    (l.map (fun c =>
      if c.user_id == uid && c.is_active then { c with is_active := false } else c)).countP
      (fun c => c.id == cid) =
    l.countP (fun c => c.id == cid) := by
  rw [List.countP_map]
  apply countP_congr_on
  intro c _
  simp only [Function.comp]
  by_cases hcond : (c.user_id == uid && c.is_active) = true
  · rw [if_pos hcond]
  · rw [if_neg hcond]

theorem countP_id_le_one (cid : ℕ) (l : List ConvRow)
    (hpw : l.Pairwise (fun a b => a.id ≠ b.id)) :
    l.countP (fun c => c.id == cid) ≤ 1 := by
  induction l with
  | nil => simp
  | cons c rest ih =>
    rw [List.pairwise_cons] at hpw
    rw [List.countP_cons]
    by_cases hc : (c.id == cid) = true
    · have hzero : rest.countP (fun c => c.id == cid) = 0 := by
        apply List.countP_eq_zero.mpr
        intro a ha hp
        have h1 : c.id = cid := eq_of_beq hc
        have h2 : a.id = cid := eq_of_beq hp
        exact hpw.1 a ha (by omega)
      simp [hc, hzero]
    · simp only [hc, if_neg, Bool.false_eq_true, not_false_iff]
      have := ih hpw.2
      omega

/-- Claim C5: both `create_conversation` and `switch_conversation` first
deactivate every active conversation of the user and then activate exactly
one (the schema-default-active insert, resp. the `is_active = 1` update on
the requested id), so from any state where every user has at most one active
conversation — with primary-key-distinct conversation ids — both operations
preserve that invariant. -/
theorem active_conversation_invariant (s : Store) (uid cid : ℕ) (model sys : String)
    (hinv : atMostOneActive s) (hids : s.convs.Pairwise (fun a b => a.id ≠ b.id)) :
    atMostOneActive (create_conversation s uid model sys).1 ∧
    atMostOneActive (switch_conversation s uid cid).1 := by
  constructor
  · intro v
    simp only [create_conversation, List.countP_append]
    by_cases hv : v = uid
    · subst hv
      rw [deactivate_countP_self]
      simp [List.countP_cons]
    · rw [deactivate_countP_other uid v hv]
      have hone : ([(⟨s.nextConvId, uid, model, sys, true⟩ : ConvRow)].countP
          (fun c => c.user_id == v && c.is_active)) = 0 := by
        simp only [List.countP_cons, List.countP_nil]
        have : (uid == v) = false := beq_eq_false_iff_ne.mpr (fun h => hv h.symm)
        simp [this]
      rw [hone]
      have := hinv v
      omega
  · simp only [switch_conversation]
    by_cases hempty : (s.convs.filter (fun c => c.id == cid && c.user_id == uid)).isEmpty = true
    · rw [if_pos hempty]
      exact hinv
    · rw [if_neg hempty]
      obtain ⟨c0, hc0⟩ := List.exists_mem_of_ne_nil _
        (fun h => hempty (List.isEmpty_iff.mpr h))
      have hc0mem : c0 ∈ s.convs := (List.mem_filter.mp hc0).1
      have hc0p := (List.mem_filter.mp hc0).2
      have hc0id : c0.id = cid := eq_of_beq ((Bool.and_eq_true _ _).mp hc0p).1
      have hc0uid : c0.user_id = uid := eq_of_beq ((Bool.and_eq_true _ _).mp hc0p).2
      intro v
      set l' := s.convs.map (fun c =>
        if c.user_id == uid && c.is_active then { c with is_active := false } else c) with hl'
      have huniq : ∀ c ∈ l', c.id = cid → c.user_id = uid := by
        intro c hc hcid
        obtain ⟨c1, hc1mem, rfl⟩ := List.mem_map.mp hc
        have hid1 : c1.id = cid := by
          by_cases hcond : (c1.user_id == uid && c1.is_active) = true
          · simpa [hcond] using hcid
          · simpa [hcond] using hcid
        have hceq : c1 = c0 := by
          by_contra hne
          exact (List.Pairwise.forall (fun _ _ h => Ne.symm h) hids
            hc1mem hc0mem hne) (by rw [hid1, hc0id])
        by_cases hcond : (c1.user_id == uid && c1.is_active) = true
        · rw [if_pos hcond]
          exact eq_of_beq ((Bool.and_eq_true _ _).mp hcond).1
        · rw [if_neg hcond, hceq, hc0uid]
      by_cases hv : v = uid
      · subst hv
        rw [List.countP_map]
        have hle : l'.countP ((fun c => c.user_id == v && c.is_active) ∘
            (fun c => if c.id == cid then { c with is_active := true } else c)) ≤
            l'.countP (fun c => c.id == cid) := by
          apply List.countP_mono_left
          intro c hc hp
          by_cases hcid : (c.id == cid) = true
          · exact hcid
          · exfalso
            rw [Function.comp, if_neg hcid] at hp
            have hzero := deactivate_countP_self v s.convs
            rw [← hl'] at hzero
            exact (List.countP_eq_zero.mp hzero c hc) hp
        have heq : l'.countP (fun c => c.id == cid) =
            s.convs.countP (fun c => c.id == cid) := by
          rw [hl']
          exact deactivate_countP_id v cid s.convs
        calc l'.countP _ ≤ l'.countP (fun c => c.id == cid) := hle
          _ = s.convs.countP (fun c => c.id == cid) := heq
          _ ≤ 1 := countP_id_le_one cid s.convs hids
      · rw [List.countP_map]
        have heq1 : l'.countP ((fun c => c.user_id == v && c.is_active) ∘
            (fun c => if c.id == cid then { c with is_active := true } else c)) =
            l'.countP (fun c => c.user_id == v && c.is_active) := by
          apply countP_congr_on
          intro c hc
          by_cases hcid : (c.id == cid) = true
          · have huser : c.user_id = uid := huniq c hc (eq_of_beq hcid)
            have hfv : (c.user_id == v) = false := by
              rw [huser]
              exact beq_eq_false_iff_ne.mpr (fun h => hv h.symm)
            rw [Function.comp, if_pos hcid]
            simp [hfv]
          · rw [Function.comp, if_neg hcid]
        have heq2 : l'.countP (fun c => c.user_id == v && c.is_active) =
            s.convs.countP (fun c => c.user_id == v && c.is_active) := by
          rw [hl']
          exact deactivate_countP_other uid v hv s.convs
        rw [heq1, heq2]
        exact hinv v

theorem active_conversation_invariant_witness :
    atMostOneActive (create_conversation
      ⟨[⟨1, 7, "gpt-4o", "sys", true⟩], [], [], [], 2, 1⟩ 7 "gemini" "sys2").1 ∧
    atMostOneActive (switch_conversation
      ⟨[⟨1, 7, "gpt-4o", "sys", true⟩], [], [], [], 2, 1⟩ 7 1).1 :=
  active_conversation_invariant ⟨[⟨1, 7, "gpt-4o", "sys", true⟩], [], [], [], 2, 1⟩ 7 1
    "gemini" "sys2"
    (fun v => le_trans (List.countP_le_length _) (by simp))
    (by simp)

/-- Claim C6: `check_limits` blocks exactly when a positive daily ceiling is
met or exceeded by the tokens logged since the start of the current day, or
a positive monthly ceiling is met or exceeded by the tokens logged since the
start of the current month; a zero ceiling never blocks, and the comparison
is inclusive.  The two closed conjuncts restate the spec's boundary example:
a ledger holding exactly 1000 tokens today blocks against a daily ceiling of
1000, while 999 does not. -/
theorem check_limits_blocking (cfg : Config) (s : Store) (uid dayStart monthStart : ℕ) :
    ((check_limits cfg s uid dayStart monthStart).isSome ↔
      (0 < cfg.daily_token_limit ∧ cfg.daily_token_limit ≤ get_daily_tokens s uid dayStart) ∨
      (0 < cfg.monthly_token_limit ∧
        cfg.monthly_token_limit ≤ get_monthly_tokens s uid monthStart)) ∧
    (check_limits ⟨"gpt-4o", "gemini-2.5-flash", 50, 4096, 1000, 0⟩
      ⟨[], [], [⟨7, "chat", "gpt-4o", 1000, 10⟩], [], 1, 1⟩ 7 10 0).isSome = true ∧
    check_limits ⟨"gpt-4o", "gemini-2.5-flash", 50, 4096, 1000, 0⟩
      ⟨[], [], [⟨7, "chat", "gpt-4o", 999, 10⟩], [], 1, 1⟩ 7 10 0 = none := by
  refine ⟨?_, rfl, rfl⟩
  unfold check_limits check_monthly
  split_ifs with h1 h2 h3 h4 h5 h6 <;>
    simp_all <;> omega

theorem call_with_rotation_fatal (f : ℕ → PyResult α) (K cur : ℕ) (hK : 0 < K) (e : String)
    (hf : f (cur % K) = .exn e) (hrl : isRateLimitError e = false) :
    call_with_rotation f K cur = ⟨.error (some e), cur, [cur % K]⟩ := by
  obtain ⟨k, rfl⟩ : ∃ k, K = k + 1 := ⟨K - 1, by omega⟩
  simp [call_with_rotation, callWithRotationAux, hf, hrl]

theorem foldl_append_all_empty :
    ∀ (l : List Chunk) (acc : String), (∀ c ∈ l, c.delta = "") →
      l.foldl (fun a c => a ++ c.delta) acc = acc := by
  intro l
  induction l with
  | nil => intro acc _; rfl
  | cons c rest ih =>
    intro acc hall
    rw [List.foldl_cons, hall c (List.mem_cons_self c rest)]
    have hacc : acc ++ "" = acc := by simp
    rw [hacc]
    exact ih acc (fun c' hc' => hall c' (List.mem_cons_of_mem c hc'))

theorem streamLoop_all_empty (interval : ℚ) (chunks : List Chunk)
    (h : ∀ c ∈ chunks, c.delta = "") : streamLoop interval chunks = ⟨[], none, ""⟩ := by
  have hfull : (streamLoopAux interval chunks "" 0).2 = "" := by
    rw [streamLoopAux_fullText]
    exact foldl_append_all_empty chunks "" h
  have hedits := streamLoopAux_empty_no_edits interval chunks "" 0 hfull
  simp only [streamLoop, hfull, hedits]
  rfl

theorem delete_last_exchange_spec (s : Store) (cid : ℕ) (u : MsgRow) (L : List MsgRow)
    (hmsgs : s.msgs = L ++ [u])
    (hids : ∀ m ∈ L, m.id ≠ u.id)
    (hpw : L.Pairwise (fun a b => a.id ≠ b.id))
    (hu : u.conversation_id = cid) :
    ((delete_last_exchange s cid).1).msgs.filter (fun m => m.conversation_id == cid) =
      (L.filter (fun m => m.conversation_id == cid)).dropLast ∧
    ((delete_last_exchange s cid).1).msgs.filter (fun m => !(m.conversation_id == cid)) =
      L.filter (fun m => !(m.conversation_id == cid)) ∧
    (delete_last_exchange s cid).2 = true ∧
    ((delete_last_exchange s cid).1).usage = s.usage ∧
    ((delete_last_exchange s cid).1).convs = s.convs := by
  have hucid : (u.conversation_id == cid) = true := beq_iff_eq.mpr hu
  have hfilt : (L ++ [u]).filter (fun m => m.conversation_id == cid) =
      L.filter (fun m => m.conversation_id == cid) ++ [u] := by
    rw [List.filter_append]
    simp [hucid]
  set M := L.filter (fun m => m.conversation_id == cid) with hM
  have hdoomed : ((L ++ [u]).filter (fun m => m.conversation_id == cid)).reverse.take 2 =
      u :: M.reverse.take 1 := by
    rw [hfilt, List.reverse_append]
    rfl
  simp only [delete_last_exchange, hmsgs, hdoomed]
  rw [if_neg (by simp)]
  cases hMrev : M.reverse with
  | nil =>
    have hMnil : M = [] := List.reverse_eq_nil_iff.mp hMrev
    simp only [hMrev, List.take_nil, List.map_cons, List.map_nil]
    have hpall : ∀ m ∈ L, (!(([u.id] : List ℕ).contains m.id)) = true := by
      intro m hm
      simp [List.contains_cons, hids m hm]
    have hLkeep : L.filter (fun m => !(([u.id] : List ℕ).contains m.id)) = L :=
      List.filter_eq_self.mpr hpall
    have hudrop : ((!(([u.id] : List ℕ).contains u.id)) : Bool) = false := by
      simp [List.contains_cons]
    rw [List.filter_append]
    simp only [List.filter_cons, hudrop, List.filter_nil, Bool.false_eq_true, if_neg,
      not_false_iff, List.append_nil, hLkeep]
    refine ⟨?_, by first | rfl | trivial, by first | rfl | trivial,
      by first | rfl | trivial, by first | rfl | trivial⟩
    rw [← hM, hMnil]
    rfl
  | cons mL rest' =>
    have hMeq : M = rest'.reverse ++ [mL] := by
      have := congrArg List.reverse hMrev
      simpa using this
    have hmLM : mL ∈ M := by
      rw [hMeq]
      simp
    have hmLfilter : mL ∈ L.filter (fun m => m.conversation_id == cid) := by
      rw [← hM]
      exact hmLM
    have hmLL : mL ∈ L := (List.mem_filter.mp hmLfilter).1
    have hmLcid : (mL.conversation_id == cid) = true := (List.mem_filter.mp hmLfilter).2
    have hpwM : M.Pairwise (fun a b => a.id ≠ b.id) := by
      rw [hM]
      exact List.Pairwise.sublist (List.filter_sublist L) hpw
    simp only [hMrev, List.take_succ_cons, List.take_zero, List.map_cons, List.map_nil]
    have hudrop : ((!(([u.id, mL.id] : List ℕ).contains u.id)) : Bool) = false := by
      simp [List.contains_cons]
    have hkeep_iff : ∀ m : MsgRow, m.id ≠ u.id → m.id ≠ mL.id →
        (!(([u.id, mL.id] : List ℕ).contains m.id)) = true := by
      intro m h1 h2
      simp [List.contains_cons, h1, h2]
    have hdrop_mL : ((!(([u.id, mL.id] : List ℕ).contains mL.id)) : Bool) = false := by
      simp [List.contains_cons]
    rw [List.filter_append]
    simp only [List.filter_cons, hudrop, Bool.false_eq_true, if_neg, not_false_iff,
      List.filter_nil, List.append_nil]
    refine ⟨?_, ?_, by first | rfl | trivial, by first | rfl | trivial,
      by first | rfl | trivial⟩
    · rw [List.filter_filter]
      have hstep : L.filter (fun m =>
          (m.conversation_id == cid) && !(([u.id, mL.id] : List ℕ).contains m.id)) =
          M.filter (fun m => !(([u.id, mL.id] : List ℕ).contains m.id)) := by
        rw [hM, List.filter_filter]
        apply List.filter_congr
        intro m _
        rw [Bool.and_comm]
      rw [hstep, hMeq, List.filter_append]
      have hM0 : rest'.reverse.filter (fun m => !(([u.id, mL.id] : List ℕ).contains m.id)) =
          rest'.reverse := by
        apply List.filter_eq_self.mpr
        intro m hm
        have hmM : m ∈ M := by rw [hMeq]; exact List.mem_append_left _ hm
        have hmfilter : m ∈ L.filter (fun x => x.conversation_id == cid) := by
          rw [← hM]
          exact hmM
        have h1 : m.id ≠ u.id := hids m (List.mem_filter.mp hmfilter).1
        have h2 : m.id ≠ mL.id := by
          rw [hMeq] at hpwM
          rw [List.pairwise_append] at hpwM
          exact hpwM.2.2 m hm mL (List.mem_singleton.mpr rfl)
        exact hkeep_iff m h1 h2
      rw [hM0]
      simp only [List.filter_cons, hdrop_mL, Bool.false_eq_true, if_neg, not_false_iff,
        List.filter_nil, List.append_nil]
      rw [List.dropLast_concat]
    · rw [List.filter_filter]
      apply List.filter_congr
      intro m hm
      by_cases hcid : (m.conversation_id == cid) = true
      · simp [hcid]
      · have h1 : m.id ≠ u.id := hids m hm
        have h2 : m.id ≠ mL.id := by
          intro heq
          have hmne : m ≠ mL := by
            intro hcontra
            rw [hcontra] at hcid
            exact hcid hmLcid
          exact (List.Pairwise.forall (fun _ _ h => Ne.symm h) hpw hm hmLL hmne) heq
        have := hkeep_iff m h1 h2
        rw [this]
        simp [hcid]

/-- Claim C1 evidence (code bug): when Gemini is configured and its `chat`
raises a (non-rate-limit) provider error after persisting the user turn, the
Coordinator's fallback handler crashes with
`AttributeError: delete_last_user_message` — `Repository` defines
`delete_last_exchange` and `delete_last_user_message` is never defined — so
the final store still holds the Gemini-persisted user message (exactly one,
undeleted), no assistant message, no usage row, and the OpenAI fallback is
never invoked; the operation surfaces the AttributeError instead of the
documented rewind-and-retry. -/
theorem chat_fallback_attribute_error (cfg : Config) (skills : String)
    (gen : List GContent → String → ℕ → PyResult GemResponse) (K : ℕ)
    (openai : List OAIMsg → PyResult OAIChatResponse)
    (s : Store) (cur uid : ℕ) (userMsg : String) (now : ℕ) (conv : ConvRow) (e : String)
    (hconv : get_active_conversation s uid = some conv)
    (hK : 0 < K)
    (hgen : ∀ cs sys i, gen cs sys i = .exn e)
    (hrl : isRateLimitError e = false) :
    llm_chat cfg true skills gen K openai s cur uid userMsg now =
      (.error (.attributeError "delete_last_user_message"),
        { s with
            msgs := s.msgs ++ [⟨s.nextMsgId, conv.id, "user", userMsg, "text", none, 0⟩],
            nextMsgId := s.nextMsgId + 1 },
        cur) := by
  have hg : gemini_chat cfg skills gen K s cur uid userMsg now =
      (.error (.exn e),
        { s with
            msgs := s.msgs ++ [⟨s.nextMsgId, conv.id, "user", userMsg, "text", none, 0⟩],
            nextMsgId := s.nextMsgId + 1 },
        cur) := by
    simp only [gemini_chat, gemini_ensure_conversation, hconv]
    rw [call_with_rotation_fatal _ K cur hK e (hgen _ _ _) hrl]
    simp [add_message]
  have hconv2 : get_active_conversation
      { s with
          msgs := s.msgs ++ [⟨s.nextMsgId, conv.id, "user", userMsg, "text", none, 0⟩],
          nextMsgId := s.nextMsgId + 1 } uid = some conv := hconv
  simp only [llm_chat, if_true, hg, llm_ensure_conversation, hconv2]

theorem chat_fallback_attribute_error_witness :
    llm_chat ⟨"gpt-4o", "gemini-2.5-flash", 50, 4096, 0, 0⟩ true ""
      (fun _ _ _ => .exn "boom") 1 (fun _ => .exn "unused")
      ⟨[⟨1, 7, "gpt-4o", "sys", true⟩], [], [], [], 2, 1⟩ 0 7 "hi" 5 =
      (.error (.attributeError "delete_last_user_message"),
        ⟨[⟨1, 7, "gpt-4o", "sys", true⟩], [⟨1, 1, "user", "hi", "text", none, 0⟩],
          [], [], 2, 2⟩,
        0) :=
  chat_fallback_attribute_error ⟨"gpt-4o", "gemini-2.5-flash", 50, 4096, 0, 0⟩ ""
    (fun _ _ _ => .exn "boom") 1 (fun _ => .exn "unused")
    ⟨[⟨1, 7, "gpt-4o", "sys", true⟩], [], [], [], 2, 1⟩ 0 7 "hi" 5
    ⟨1, 7, "gpt-4o", "sys", true⟩ "boom" rfl (by decide) (fun _ _ _ => rfl) (by decide)

/-- Claim C10: when every chunk of the stream carries empty text, the
accumulated reply is empty, `on_chunk` is never invoked (no intermediate and
no final call), and `chat_stream` still persists an empty assistant message
with estimated token cost 0, logs a `chat` usage record, and returns the
empty string instead of raising an empty-generation error. -/
theorem chat_stream_empty_generation (cfg : Config) (skills : String)
    (chunksOf : List GContent → String → List Chunk) (K : ℕ)
    (s : Store) (cur uid : ℕ) (userMsg : String) (now : ℕ) (conv : ConvRow)
    (hconv : get_active_conversation s uid = some conv)
    (hempty : ∀ cs sys, ∀ c ∈ chunksOf cs sys, c.delta = "") :
    gemini_chat_stream cfg skills chunksOf K s cur uid userMsg now =
      (.ok "",
        { s with
            msgs := s.msgs ++ [⟨s.nextMsgId, conv.id, "user", userMsg, "text", none, 0⟩,
              ⟨s.nextMsgId + 1, conv.id, "assistant", "", "text", none, 0⟩],
            nextMsgId := s.nextMsgId + 2,
            usage := s.usage ++ [⟨uid, "chat", cfg.gemini_model, 0, now⟩] },
        rotate K cur,
        ⟨[], none, ""⟩) := by
  simp only [gemini_chat_stream, gemini_ensure_conversation, hconv]
  rw [streamLoop_all_empty STREAM_EDIT_INTERVAL _ (hempty _ _)]
  simp [add_message, log_api_usage]

theorem chat_stream_empty_generation_witness :
    gemini_chat_stream ⟨"gpt-4o", "gemini-2.5-flash", 50, 4096, 0, 0⟩ ""
      (fun _ _ => [⟨"", 0⟩, ⟨"", 2⟩]) 1
      ⟨[⟨1, 7, "gpt-4o", "sys", true⟩], [], [], [], 2, 1⟩ 0 7 "hi" 5 =
      (.ok "",
        ⟨[⟨1, 7, "gpt-4o", "sys", true⟩],
          [⟨1, 1, "user", "hi", "text", none, 0⟩,
            ⟨2, 1, "assistant", "", "text", none, 0⟩],
          [⟨7, "chat", "gemini-2.5-flash", 0, 5⟩], [], 2, 3⟩,
        0,
        ⟨[], none, ""⟩) :=
  chat_stream_empty_generation ⟨"gpt-4o", "gemini-2.5-flash", 50, 4096, 0, 0⟩ ""
    (fun _ _ => [⟨"", 0⟩, ⟨"", 2⟩]) 1
    ⟨[⟨1, 7, "gpt-4o", "sys", true⟩], [], [], [], 2, 1⟩ 0 7 "hi" 5
    ⟨1, 7, "gpt-4o", "sys", true⟩ rfl (by intro cs sys c hc; fin_cases hc <;> rfl)

/-- Claim C9: with only the OpenAI provider configured (the only realizable
path to the secondary, since the Gemini-configured handler crashes before
reaching it), a failing Responses-API web-search call makes
`_chat_web_search_openai` rewind via `delete_last_exchange`: the two most
recent messages of the conversation — the just-persisted user turn and the
previously-last message — are deleted before the exception propagates; other
conversations, the usage ledger and the conversation table are untouched,
and the Coordinator performs no additional rewind on top. -/
theorem web_search_internal_rewind (cfg : Config) (skills : String)
    (gemini_ws : Store → Except PyExn String × Store)
    (responsesAPI : List OAIMsg → PyResult OAIRespOutput)
    (s : Store) (uid : ℕ) (userMsg : String) (now : ℕ) (conv : ConvRow) (e : String)
    (hwf : MsgsWF s)
    (hconv : get_active_conversation s uid = some conv)
    (hfail : ∀ input, responsesAPI input = .exn e) :
    (llm_chat_web_search cfg false skills gemini_ws responsesAPI s uid userMsg now).1 =
      .error (.exn e) ∧
    (llm_chat_web_search cfg false skills gemini_ws responsesAPI s uid userMsg now).2.msgs.filter
        (fun m => m.conversation_id == conv.id) =
      (s.msgs.filter (fun m => m.conversation_id == conv.id)).dropLast ∧
    (llm_chat_web_search cfg false skills gemini_ws responsesAPI s uid userMsg now).2.msgs.filter
        (fun m => !(m.conversation_id == conv.id)) =
      s.msgs.filter (fun m => !(m.conversation_id == conv.id)) ∧
    (llm_chat_web_search cfg false skills gemini_ws responsesAPI s uid userMsg now).2.usage =
      s.usage ∧
    (llm_chat_web_search cfg false skills gemini_ws responsesAPI s uid userMsg now).2.convs =
      s.convs := by
  have hids : ∀ m ∈ s.msgs, m.id ≠
      (⟨s.nextMsgId, conv.id, "user", userMsg, "text", none, 0⟩ : MsgRow).id := by
    intro m hm
    exact Nat.ne_of_lt (hwf.1 m hm)
  have hspec := delete_last_exchange_spec
    { s with
        msgs := s.msgs ++ [⟨s.nextMsgId, conv.id, "user", userMsg, "text", none, 0⟩],
        nextMsgId := s.nextMsgId + 1 }
    conv.id ⟨s.nextMsgId, conv.id, "user", userMsg, "text", none, 0⟩ s.msgs
    rfl hids hwf.2 rfl
  simp only [llm_chat_web_search, Bool.false_eq_true, if_neg, not_false_iff,
    chat_web_search_openai, llm_ensure_conversation, hconv, hfail, add_message]
  exact ⟨by first | rfl | trivial, hspec.1, hspec.2.1, hspec.2.2.2.1, hspec.2.2.2.2⟩

theorem web_search_internal_rewind_witness :
    (llm_chat_web_search ⟨"gpt-4o", "gemini-2.5-flash", 50, 4096, 0, 0⟩ false ""
        (fun st => (.ok "unused", st)) (fun _ => .exn "api down")
        ⟨[⟨1, 7, "gpt-4o", "sys", true⟩],
          [⟨1, 1, "user", "q", "text", none, 0⟩, ⟨2, 1, "assistant", "a", "text", none, 4⟩],
          [], [], 2, 3⟩ 7 "next" 5).1 = .error (.exn "api down") ∧
    (llm_chat_web_search ⟨"gpt-4o", "gemini-2.5-flash", 50, 4096, 0, 0⟩ false ""
        (fun st => (.ok "unused", st)) (fun _ => .exn "api down")
        ⟨[⟨1, 7, "gpt-4o", "sys", true⟩],
          [⟨1, 1, "user", "q", "text", none, 0⟩, ⟨2, 1, "assistant", "a", "text", none, 4⟩],
          [], [], 2, 3⟩ 7 "next" 5).2.msgs.filter (fun m => m.conversation_id == 1) =
      [⟨1, 1, "user", "q", "text", none, 0⟩] := by
  have h := web_search_internal_rewind ⟨"gpt-4o", "gemini-2.5-flash", 50, 4096, 0, 0⟩ ""
    (fun st => (.ok "unused", st)) (fun _ => .exn "api down")
    ⟨[⟨1, 7, "gpt-4o", "sys", true⟩],
      [⟨1, 1, "user", "q", "text", none, 0⟩, ⟨2, 1, "assistant", "a", "text", none, 4⟩],
      [], [], 2, 3⟩ 7 "next" 5 ⟨1, 7, "gpt-4o", "sys", true⟩ "api down"
    ⟨by decide, by decide⟩ rfl (fun _ => rfl)
  refine ⟨h.1, ?_⟩
  rw [h.2.1]
  rfl

end Bot
